import Mathlib

/-!
Verification development for the raydium-clmm concentrated-liquidity AMM.

The repository source under `src/` contains the program entry points
(`programs/amm/src/lib.rs`); the instruction handlers, tick math, swap
engine and accounting libraries live in modules that are not part of the
provided sources.  Where a definition embeds code that is present in
`src/` this is noted; the remaining definitions are modelled from the
specification, each with a doc comment starting `Modelled from the spec:`
naming what is missing.
-/

set_option maxHeartbeats 1600000

namespace RaydiumClmm

/-- Error taxonomy of the operations (spec section 7). -/
inductive AmmError
  | validation
  | numericOverflow
  | outOfRange
  | insufficientData
  | slippageExceeded
  | stateConflict
  | authorizationFailed
deriving DecidableEq, Repr

/-- Fee-rate denominator: rates are fixed-point fractions over 1,000,000
(spec sections 4.5 and 8; the constant is referenced by the entry point
`create_amm_config` in `src/programs/amm/src/lib.rs`). -/
def FEE_RATE_DENOMINATOR_VALUE : ℕ := 1000000

/-- Q64.64 scaling factor used by the fixed-point quantities. -/
def Q64 : ℕ := 2 ^ 64

/-- Width modulus of the wrapping fee-growth / reward-growth counters
(spec section 3: accumulators may wrap modulo a fixed-width integer). -/
def GROWTH_MOD : ℕ := 2 ^ 128

/-- Wrapping (unsigned, modulo `GROWTH_MOD`) subtraction of growth
counters (spec sections 3 and 4.3: only differences of growth counters
are meaningful, computed by unsigned wraparound subtraction). -/
def wsub (a b : ℕ) : ℕ := (a + (GROWTH_MOD - b % GROWTH_MOD)) % GROWTH_MOD

theorem wsub_self (a : ℕ) : wsub a a = 0 := by
  unfold wsub GROWTH_MOD
  omega

/-! ## AMM configuration (`create_amm_config`)

The entry point `create_amm_config` is in `src/programs/amm/src/lib.rs`
lines 39-49: it asserts `protocol_fee_rate > 0 &&
protocol_fee_rate <= FEE_RATE_DENOMINATOR_VALUE` and
`trade_fee_rate < FEE_RATE_DENOMINATOR_VALUE`, then calls
`instructions::create_amm_config(ctx, index, tick_spacing,
protocol_fee_rate, trade_fee_rate)` — note the call site passes the
variable named `protocol_fee_rate` in the fourth argument position and
`trade_fee_rate` in the fifth. -/

/-- Configuration record created by `create_amm_config`
(spec section 3: protocol fee rate and trade fee rate, and section 6:
`create_config(index, tick_spacing, trade_fee_rate, protocol_fee_rate)`). -/
structure AmmConfig where
  index : ℕ
  tickSpacing : ℕ
  protocolFeeRate : ℕ
  tradeFeeRate : ℕ
deriving DecidableEq, Repr

/-- Modelled from the spec: the instruction handler
`instructions::create_amm_config` is not under `src/` (only its caller
is).  The spec (sections 3 and 6) describes `create_config` as creating
a configuration whose trade fee rate and protocol fee rate are the
caller's same-named arguments; the caller in `lib.rs` line 48 passes the
variable named `protocol_fee_rate` fourth and `trade_fee_rate` fifth, so
the handler's parameters are modelled in that (protocol, trade) order,
each assigned to the config field of the same name. -/
def instructions_create_amm_config (index tickSpacing protocolFeeRate tradeFeeRate : ℕ) :
    AmmConfig :=
  { index := index
    tickSpacing := tickSpacing
    protocolFeeRate := protocolFeeRate
    tradeFeeRate := tradeFeeRate }

/-- Entry point `create_amm_config` (`src/programs/amm/src/lib.rs` lines
39-49): the two `assert!` guards abort the operation (no configuration
is created) when violated; otherwise it delegates to the handler passing
`protocol_fee_rate` fourth and `trade_fee_rate` fifth, exactly as on
line 48. -/
def create_amm_config (index tickSpacing tradeFeeRate protocolFeeRate : ℕ) :
    Except AmmError AmmConfig :=
  if protocolFeeRate > 0 ∧ protocolFeeRate ≤ FEE_RATE_DENOMINATOR_VALUE then
    if tradeFeeRate < FEE_RATE_DENOMINATOR_VALUE then
      .ok (instructions_create_amm_config index tickSpacing protocolFeeRate tradeFeeRate)
    else .error .validation
  else .error .validation

/-! ## Reward parameters (`set_reward_params`) -/

/-- Per-stream reward state (spec section 3, RewardInfo): emissions per
second (Q64.64), open/end timestamps, last-update timestamp, global
reward-growth accumulator. -/
structure RewardInfo where
  openTime : ℕ
  endTime : ℕ
  lastUpdateTime : ℕ
  emissionsPerSecondX64 : ℕ
  rewardGrowthGlobalX64 : ℕ
deriving DecidableEq, Repr

/-- Modelled from the spec: the instruction handler
`instructions::set_reward_params` is not under `src/` (only its entry
point, `lib.rs` lines 156-170, is).  Spec section 4.6: the call either
starts a new cycle (requires open time in the future and end time after
open time) or extends an active cycle (the new emissions-per-second must
be at least the old value; a lower value fails with a state-conflict
error). -/
def set_reward_params (now : ℕ) (ri : RewardInfo)
    (emissionsPerSecondX64 openTime endTime : ℕ) : Except AmmError RewardInfo :=
  if ri.openTime ≤ now ∧ now < ri.endTime then
    -- the cycle is active: extend it
    if emissionsPerSecondX64 < ri.emissionsPerSecondX64 then .error .stateConflict
    else .ok { ri with emissionsPerSecondX64 := emissionsPerSecondX64, endTime := endTime }
  else
    -- start a new cycle
    if now < openTime ∧ openTime < endTime then
      .ok { openTime := openTime
            endTime := endTime
            lastUpdateTime := openTime
            emissionsPerSecondX64 := emissionsPerSecondX64
            rewardGrowthGlobalX64 := ri.rewardGrowthGlobalX64 }
    else .error .validation

/-- Modelled from the spec: `update_reward_infos` (handler not under
`src/`).  Spec section 4.6: advance the stream's global growth
accumulator by emissions-per-second times elapsed seconds divided by the
active liquidity, skipping the growth update (but still advancing the
last-update timestamp, per the source-behavior note in section 9) when
liquidity is zero; time is clamped to the cycle's end time. -/
def updateRewardInfo (now liquidity : ℕ) (ri : RewardInfo) : RewardInfo :=
  let t2 := min now ri.endTime
  let dt := t2 - ri.lastUpdateTime
  if liquidity = 0 then { ri with lastUpdateTime := t2 }
  else
    { ri with
      lastUpdateTime := t2
      rewardGrowthGlobalX64 :=
        (ri.rewardGrowthGlobalX64 + ri.emissionsPerSecondX64 * dt / liquidity) % GROWTH_MOD }

/-! ## Position fee/reward settlement (spec sections 4.3 and 4.6) -/

/-- Position accounting state (spec section 3, Position): liquidity,
fee-growth-inside snapshots per token, reward-growth-inside snapshots
per stream, and accumulated-but-unclaimed fee/reward balances. -/
structure PositionAcct where
  liquidity : ℕ
  feeGrowthInside0Last : ℕ
  feeGrowthInside1Last : ℕ
  tokenFeesOwed0 : ℕ
  tokenFeesOwed1 : ℕ
  rewardGrowthInsideLast : List ℕ
  rewardAmountOwed : List ℕ
deriving DecidableEq, Repr

/-- Modelled from the spec: `get_fee_growth_inside` (TickAccounting, not
under `src/`).  Spec section 4.3: the growth accumulated strictly inside
the range is global growth minus growth-outside-below minus
growth-outside-above, with unsigned wraparound subtraction; the stored
outside value is reinterpreted relative to the current tick's side. -/
def get_fee_growth_inside (global outsideLower outsideUpper : ℕ)
    (tickCurrent tickLower tickUpper : ℤ) : ℕ :=
  let below := if tickLower ≤ tickCurrent then outsideLower else wsub global outsideLower
  let above := if tickCurrent < tickUpper then outsideUpper else wsub global outsideUpper
  wsub (wsub global below) above

/-- Everything a settlement reads from the pool and the range's two
ticks: global growth accumulators, current tick, the range, and the
stored outside-growth values at the two boundary ticks. -/
structure SettleCtx where
  feeGrowthGlobal0 : ℕ
  feeGrowthGlobal1 : ℕ
  rewardGrowthsGlobal : List ℕ
  tickCurrent : ℤ
  tickLower : ℤ
  tickUpper : ℤ
  lowerOutside0 : ℕ
  lowerOutside1 : ℕ
  upperOutside0 : ℕ
  upperOutside1 : ℕ
  lowerOutsideRewards : List ℕ
  upperOutsideRewards : List ℕ
deriving DecidableEq, Repr

/-- Modelled from the spec: position settlement (FeeAndRewardAccrual,
not under `src/`).  Spec section 4.6: recompute the growth-inside
values, subtract the stored snapshot (unsigned wraparound difference),
multiply by the position's liquidity (scaled back from the per-liquidity
Q64.64 representation), add to the unclaimed balances, then overwrite
the snapshots with the new growth values. -/
def settlePosition (c : SettleCtx) (pos : PositionAcct) : PositionAcct :=
  let gi0 := get_fee_growth_inside c.feeGrowthGlobal0 c.lowerOutside0 c.upperOutside0
    c.tickCurrent c.tickLower c.tickUpper
  let gi1 := get_fee_growth_inside c.feeGrowthGlobal1 c.lowerOutside1 c.upperOutside1
    c.tickCurrent c.tickLower c.tickUpper
  let giR := List.zipWith
    (fun gl lu => get_fee_growth_inside gl lu.1 lu.2 c.tickCurrent c.tickLower c.tickUpper)
    c.rewardGrowthsGlobal (List.zip c.lowerOutsideRewards c.upperOutsideRewards)
  { pos with
    tokenFeesOwed0 := pos.tokenFeesOwed0 + wsub gi0 pos.feeGrowthInside0Last * pos.liquidity / Q64
    tokenFeesOwed1 := pos.tokenFeesOwed1 + wsub gi1 pos.feeGrowthInside1Last * pos.liquidity / Q64
    feeGrowthInside0Last := gi0
    feeGrowthInside1Last := gi1
    rewardAmountOwed := List.zipWith
      (fun o gs => o + wsub gs.1 gs.2 * pos.liquidity / Q64)
      pos.rewardAmountOwed (List.zip giR pos.rewardGrowthInsideLast)
    rewardGrowthInsideLast := giR }

theorem zipWith_self_add_zero (l g : List ℕ) (liq : ℕ) :
    List.zipWith (fun o gs => o + wsub gs.1 gs.2 * liq / Q64)
      l (List.zip g g) = l.take g.length := by
  induction l generalizing g with
  | nil => simp
  | cons a l ih =>
    cases g with
    | nil => simp
    | cons b g =>
      simp [wsub_self, ih, Nat.zero_div]

/-! ## Tick math (spec sections 4.1 and 4.2)

The tick math library (`libraries`) is not under `src/`; the conversions
are modelled from the spec: a monotone bijection between a bounded
signed tick index and a square-root price, with the inverse conversion
rounding conservatively (the returned tick is the greatest tick whose
price does not exceed the given price). -/

/-- Global minimum usable tick (spec section 4.2: MIN_TICK / MAX_TICK
bound the usable square-root-price range). -/
def MIN_TICK : ℤ := -443636

/-- Global maximum usable tick (spec section 4.2). -/
def MAX_TICK : ℤ := 443636

/-- Modelled from the spec: the per-tick square-root-price ratio.  The
tick math library is not under `src/`; the model represents a Q64.64
square-root price by an exact positive rational, with one tick scaling
the square-root price by this fixed factor (the standard CLMM per-tick
price base 1.0001, as implied by the spec's DENOMINATOR/fee constants). -/
def tickRatio : ℚ := 10001 / 10000

theorem one_lt_tickRatio : (1 : ℚ) < tickRatio := by norm_num [tickRatio]

theorem tickRatio_pos : (0 : ℚ) < tickRatio := by norm_num [tickRatio]

/-- Binary exponentiation on ℚ (fuelled, structurally recursive); used
so that tick prices evaluate by square-and-multiply. -/
def qpowAux : ℕ → ℚ → ℕ → ℚ
  | 0, _, _ => 1
  | fuel + 1, q, n =>
    if n = 0 then 1
    else
      let h := qpowAux fuel (q * q) (n / 2)
      if n % 2 = 1 then q * h else h

/-- Binary exponentiation on ℚ. -/
def qpow (q : ℚ) (n : ℕ) : ℚ := qpowAux n q n

theorem qpowAux_eq (fuel : ℕ) : ∀ (q : ℚ) (n : ℕ), n ≤ fuel → qpowAux fuel q n = q ^ n := by
  induction fuel with
  | zero =>
    intro q n hn
    have : n = 0 := Nat.le_zero.mp hn
    subst this
    simp [qpowAux]
  | succ fuel ih =>
    intro q n hn
    by_cases h0 : n = 0
    · subst h0; simp [qpowAux]
    · have hhalf : n / 2 ≤ fuel := by omega
      have hrec := ih (q * q) (n / 2) hhalf
      have hqq : (q * q) ^ (n / 2) = q ^ (2 * (n / 2)) := by
        rw [two_mul, pow_add, ← mul_pow]
      by_cases hpar : n % 2 = 1
      · have hsplit : n = 2 * (n / 2) + 1 := by omega
        simp only [qpowAux, h0, if_false, hpar, if_true]
        rw [hrec, hqq]
        conv_rhs => rw [hsplit]
        rw [pow_succ]
        ring
      · have hsplit : n = 2 * (n / 2) := by omega
        simp only [qpowAux, h0, if_false, hpar, if_false]
        rw [hrec, hqq]
        conv_rhs => rw [hsplit]

theorem qpow_eq (q : ℚ) (n : ℕ) : qpow q n = q ^ n := qpowAux_eq n q n (le_refl n)

/-- Modelled from the spec: `sqrt_price_from_tick` (spec section 4.1),
the square-root price of a tick index, a strictly monotone function of
the tick. -/
def sqrt_price_from_tick (t : ℤ) : ℚ :=
  if 0 ≤ t then qpow tickRatio t.toNat else (qpow tickRatio (-t).toNat)⁻¹

theorem sqrt_price_from_tick_eq_zpow (t : ℤ) : sqrt_price_from_tick t = tickRatio ^ t := by
  unfold sqrt_price_from_tick
  by_cases ht : 0 ≤ t
  · rw [if_pos ht, qpow_eq, ← zpow_natCast, Int.toNat_of_nonneg ht]
  · rw [if_neg ht, qpow_eq, ← zpow_natCast, Int.toNat_of_nonneg (by omega : (0:ℤ) ≤ -t),
      ← zpow_neg, neg_neg]

theorem sqrt_price_pos (t : ℤ) : 0 < sqrt_price_from_tick t := by
  rw [sqrt_price_from_tick_eq_zpow]
  exact zpow_pos tickRatio_pos t

theorem sqrt_price_le_sqrt_price_iff {s t : ℤ} :
    sqrt_price_from_tick s ≤ sqrt_price_from_tick t ↔ s ≤ t := by
  rw [sqrt_price_from_tick_eq_zpow, sqrt_price_from_tick_eq_zpow]
  exact zpow_le_zpow_iff_right₀ one_lt_tickRatio

/-- Modelled from the spec: `tick_from_sqrt_price` (spec section 4.1),
the inverse conversion: the greatest tick in [MIN_TICK, MAX_TICK] whose
square-root price does not exceed the given price (conservative
rounding), MIN_TICK when no such tick exists. -/
def tick_from_sqrt_price (p : ℚ) : ℤ :=
  (((Finset.Icc MIN_TICK MAX_TICK).filter
    (fun t => sqrt_price_from_tick t ≤ p)).max).unbot' MIN_TICK

theorem tick_filter_eq_Icc {t : ℤ} (_hmin : MIN_TICK ≤ t) (hmax : t ≤ MAX_TICK) :
    (Finset.Icc MIN_TICK MAX_TICK).filter
      (fun s => sqrt_price_from_tick s ≤ sqrt_price_from_tick t) =
      Finset.Icc MIN_TICK t := by
  ext s
  simp only [Finset.mem_filter, Finset.mem_Icc, sqrt_price_le_sqrt_price_iff]
  omega

theorem Icc_max_eq {a t : ℤ} (h : a ≤ t) : (Finset.Icc a t).max = (t : WithBot ℤ) := by
  apply le_antisymm
  · apply Finset.max_le
    intro b hb
    rw [Finset.mem_Icc] at hb
    exact_mod_cast hb.2
  · exact Finset.le_max (Finset.mem_Icc.mpr ⟨h, le_refl t⟩)

/-- Round-trip law: converting a valid tick to its square-root price and
back returns the tick. -/
theorem tick_round_trip {t : ℤ} (hmin : MIN_TICK ≤ t) (hmax : t ≤ MAX_TICK) :
    tick_from_sqrt_price (sqrt_price_from_tick t) = t := by
  unfold tick_from_sqrt_price
  rw [tick_filter_eq_Icc hmin hmax, Icc_max_eq hmin]
  rfl

/-- Any in-range tick whose price is at most `p` bounds
`tick_from_sqrt_price p` from below. -/
theorem le_tick_from_sqrt_price {t : ℤ} {p : ℚ} (hmin : MIN_TICK ≤ t)
    (hmax : t ≤ MAX_TICK) (h : sqrt_price_from_tick t ≤ p) :
    t ≤ tick_from_sqrt_price p := by
  have hmem : t ∈ (Finset.Icc MIN_TICK MAX_TICK).filter
      (fun s => sqrt_price_from_tick s ≤ p) := by
    rw [Finset.mem_filter, Finset.mem_Icc]
    exact ⟨⟨hmin, hmax⟩, h⟩
  have hle := Finset.le_max hmem
  cases hmx : (((Finset.Icc MIN_TICK MAX_TICK).filter
      (fun s => sqrt_price_from_tick s ≤ p)).max) with
  | bot => rw [hmx] at hle; exact absurd hle (by simp)
  | coe m =>
    rw [hmx] at hle
    unfold tick_from_sqrt_price
    rw [hmx]
    exact_mod_cast hle

/-- If `p` is at most the price of an in-range tick `u`, then
`tick_from_sqrt_price p` is at most `u`. -/
theorem tick_from_sqrt_price_le {u : ℤ} {p : ℚ} (hmin : MIN_TICK ≤ u)
    (h : p ≤ sqrt_price_from_tick u) : tick_from_sqrt_price p ≤ u := by
  unfold tick_from_sqrt_price
  cases hmx : (((Finset.Icc MIN_TICK MAX_TICK).filter
      (fun s => sqrt_price_from_tick s ≤ p)).max) with
  | bot => simpa using hmin
  | coe m =>
    have hmem := Finset.mem_of_max hmx
    rw [Finset.mem_filter] at hmem
    have : sqrt_price_from_tick m ≤ sqrt_price_from_tick u := le_trans hmem.2 h
    rw [sqrt_price_le_sqrt_price_iff] at this
    simpa using this

/-! ## Swap engine (spec section 4.5)

The swap instruction handler and swap-step library are not under `src/`
(only the entry point, `lib.rs` lines 283-297, is); the engine is
modelled from the spec's state machine for the base-input,
zero-for-one (token0 in, price moving down) direction. -/

/-- Pool state read and written by the swap engine (spec section 3,
Pool): current square-root price, active liquidity, global fee-growth
accumulator for the input token, accrued protocol fees, the two fee
rates, the tick spacing, and the supplied set of initialized ticks with
their liquidity-net values. -/
structure SwapPool where
  sqrtPrice : ℚ
  tickSpacing : ℕ
  liquidity : ℕ
  feeGrowthGlobal0 : ℚ
  protocolFeesToken0 : ℕ
  tradeFeeRate : ℕ
  protocolFeeRate : ℕ
  ticks : List (ℤ × ℤ)
deriving DecidableEq, Repr

/-- Modelled from the spec: `next_initialized_tick` (spec section 4.2)
for the downward direction — the greatest supplied initialized tick
whose square-root price is strictly below the current price, together
with its liquidity-net; `none` when the supplied set has no further
tick. -/
def nextTickDown (p : ℚ) : List (ℤ × ℤ) → Option (ℤ × ℤ)
  | [] => none
  | (i, n) :: rest =>
    let r := nextTickDown p rest
    if sqrt_price_from_tick i < p then
      match r with
      | none => some (i, n)
      | some (j, m) => if j < i then some (i, n) else some (j, m)
    else r

/-- Net token0 input needed to move the price from `p` down to `target`
at liquidity `L` (spec section 4.5 step 2, the closed-form segment
formula: the input is proportional to the change of the reciprocal
square-root price). -/
def amount0ForMove (L : ℕ) (p target : ℚ) : ℚ := L * (p - target) / (p * target)

/-- Square-root price after consuming net token0 input `x` at liquidity
`L` starting from price `p`. -/
def priceAfterIn0 (L : ℕ) (p x : ℚ) : ℚ := L * p / (L + x * p)

/-- Token1 output produced by a price move from `p` down to `q` at
liquidity `L` (spec section 4.5 step 2). -/
def amount1Out (L : ℕ) (p q : ℚ) : ℚ := L * (p - q)

/-- Fee charged on top of a net in-segment input of `n` at trade fee
rate `r` (rounded up), so that the net amount is the gross amount less
its fee share (spec section 4.5 step 3: the fee is deducted from the
input side before computing output). -/
def feeForNet (r n : ℕ) : ℕ :=
  (n * r + (FEE_RATE_DENOMINATOR_VALUE - r) - 1) / (FEE_RATE_DENOMINATOR_VALUE - r)

/-- Add a segment's fee to the pool accounting: the fee is split into a
protocol share (by `prot` over the denominator) and a
liquidity-provider share added to the global fee-growth accumulator
scaled by the current liquidity (spec section 4.5 step 3). -/
def chargeFee (fee prot : ℕ) (st : SwapPool) : SwapPool :=
  let protFee := fee * prot / FEE_RATE_DENOMINATOR_VALUE
  { st with
    feeGrowthGlobal0 := st.feeGrowthGlobal0 + ((fee - protFee : ℕ) : ℚ) / st.liquidity
    protocolFeesToken0 := st.protocolFeesToken0 + protFee }

/-- Move the price to the segment boundary, crossing the boundary tick
(applying its liquidity-net to the active liquidity, subtracting for the
downward direction — spec section 4.3) when the boundary is a supplied
initialized tick. -/
def moveAndCross (target : ℚ) (tk : Option (ℤ × ℤ)) (st : SwapPool) : SwapPool :=
  match tk with
  | some (i, n) =>
    if sqrt_price_from_tick i = target then
      { st with sqrtPrice := target, liquidity := ((st.liquidity : ℤ) - n).toNat }
    else { st with sqrtPrice := target }
  | none => { st with sqrtPrice := target }

/-- The price the current segment is bounded by: the next initialized
tick's price when the supplied tick set has one, never below the user's
price limit; when no further tick is supplied the boundary is the limit
itself (spec section 4.2: treat the boundary as the global limit). -/
def segTarget (limit : ℚ) (tk : Option (ℤ × ℤ)) : ℚ :=
  match tk with
  | none => limit
  | some (i, _) => max (sqrt_price_from_tick i) limit

/-- Modelled from the spec: the swap-step loop (spec section 4.5), for a
base-input zero-for-one swap.  Each iteration finds the next initialized
tick boundary below the current price (treating the boundary as the
price limit when the supplied tick set has no further tick), deducts the
segment's trade fee from the input side, moves the price within the
segment — to the boundary if the net remaining input suffices, else as
far as the net remaining input reaches — accrues the fee split into the
accounting, crosses the boundary tick when it is reached, and loops
while input remains and the price limit is not hit.  A segment with
zero liquidity is skipped to the boundary without consuming input.
Returns (amount_in consumed, token1 amount_out as an exact rational,
final pool state). -/
def swapLoop (r prot : ℕ) (limit : ℚ) : ℕ → SwapPool → ℕ → ℕ × ℚ × SwapPool
  | 0, st, _ => (0, 0, st)
  | fuel + 1, st, rem =>
    if rem = 0 ∨ st.sqrtPrice ≤ limit then (0, 0, st)
    else
      let tk := nextTickDown st.sqrtPrice st.ticks
      let target : ℚ := segTarget limit tk
      if st.liquidity = 0 then
        swapLoop r prot limit fuel (moveAndCross target tk st) rem
      else
        let fee := rem * r / FEE_RATE_DENOMINATOR_VALUE
        let eff := rem - fee
        let needed := amount0ForMove st.liquidity st.sqrtPrice target
        let nceil : ℕ := (Int.ceil needed).toNat
        if eff < nceil then
          -- the segment ends mid-range: the whole remaining input is consumed
          let newPrice := priceAfterIn0 st.liquidity st.sqrtPrice (eff : ℚ)
          (rem,
           amount1Out st.liquidity st.sqrtPrice newPrice,
           { (chargeFee fee prot st) with sqrtPrice := newPrice })
        else
          -- the price reaches the segment boundary
          let segFee := feeForNet r nceil
          let gross := min (nceil + segFee) rem
          let st2 := moveAndCross target tk (chargeFee segFee prot st)
          let res := swapLoop r prot limit fuel st2 (rem - gross)
          (gross + res.1, amount1Out st.liquidity st.sqrtPrice target + res.2.1, res.2.2)

/-- Entry point `swap` (`src/programs/amm/src/lib.rs` lines 283-297)
composed with the modelled engine, for a base-input zero-for-one swap:
run the loop, floor the exact token1 output to an integer amount (spec
section 4.4: amounts paid out round down), and enforce the base-input
slippage contract — fail with a slippage-exceeded error when the final
amount_out is below `other_amount_threshold` (spec section 4.5).
Returns (final pool state, amount_in, amount_out). -/
def swap (st : SwapPool) (amount otherAmountThreshold : ℕ) (sqrtPriceLimit : ℚ) :
    Except AmmError (SwapPool × ℕ × ℕ) :=
  let res := swapLoop st.tradeFeeRate st.protocolFeeRate sqrtPriceLimit
    (st.ticks.length + 1) st amount
  let amountOut := (Int.floor res.2.1).toNat
  if amountOut < otherAmountThreshold then .error .slippageExceeded
  else .ok (res.2.2, res.1, amountOut)

/-! ### Arithmetic facts about the engine's segment step -/

theorem fee_le_rem {rem r : ℕ} (hr : r ≤ FEE_RATE_DENOMINATOR_VALUE) :
    rem * r / FEE_RATE_DENOMINATOR_VALUE ≤ rem := by
  calc rem * r / FEE_RATE_DENOMINATOR_VALUE
      ≤ rem * FEE_RATE_DENOMINATOR_VALUE / FEE_RATE_DENOMINATOR_VALUE :=
        Nat.div_le_div_right (Nat.mul_le_mul_left rem hr)
    _ = rem := Nat.mul_div_cancel rem (by norm_num [FEE_RATE_DENOMINATOR_VALUE])

/-- The net remaining amount after the fee deduction is monotone in the
remaining amount and antitone in the fee rate. -/
theorem eff_mono {a b r1 r2 : ℕ} (hr12 : r1 ≤ r2) (hr2 : r2 ≤ FEE_RATE_DENOMINATOR_VALUE)
    (hab : a ≤ b) :
    a - a * r2 / FEE_RATE_DENOMINATOR_VALUE ≤ b - b * r1 / FEE_RATE_DENOMINATOR_VALUE := by
  have hD : 0 < FEE_RATE_DENOMINATOR_VALUE := by norm_num [FEE_RATE_DENOMINATOR_VALUE]
  have h21 : a * r1 / FEE_RATE_DENOMINATOR_VALUE ≤ a * r2 / FEE_RATE_DENOMINATOR_VALUE :=
    Nat.div_le_div_right (Nat.mul_le_mul_left a hr12)
  have hfa : a * r1 / FEE_RATE_DENOMINATOR_VALUE ≤ a := fee_le_rem (le_trans hr12 hr2)
  have hbsplit : b * r1 ≤ a * r1 + (b - a) * FEE_RATE_DENOMINATOR_VALUE := by
    have h1 : b * r1 = a * r1 + (b - a) * r1 := by
      rw [← Nat.add_mul, Nat.add_sub_cancel' hab]
    rw [h1]
    exact Nat.add_le_add_left (Nat.mul_le_mul_left _ (le_trans hr12 hr2)) _
  have h2 : b * r1 / FEE_RATE_DENOMINATOR_VALUE ≤
      a * r1 / FEE_RATE_DENOMINATOR_VALUE + (b - a) := by
    calc b * r1 / FEE_RATE_DENOMINATOR_VALUE
        ≤ (a * r1 + (b - a) * FEE_RATE_DENOMINATOR_VALUE) / FEE_RATE_DENOMINATOR_VALUE :=
          Nat.div_le_div_right hbsplit
      _ = a * r1 / FEE_RATE_DENOMINATOR_VALUE + (b - a) := Nat.add_mul_div_right _ _ hD
  omega

/-- The gross fee charged for a fixed net in-segment amount is monotone
in the fee rate. -/
theorem feeForNet_mono {r1 r2 n : ℕ} (hn : 1 ≤ n) (hr12 : r1 ≤ r2)
    (hr2 : r2 < FEE_RATE_DENOMINATOR_VALUE) : feeForNet r1 n ≤ feeForNet r2 n := by
  unfold feeForNet
  have hnum : n * r1 + (FEE_RATE_DENOMINATOR_VALUE - r1) - 1 ≤
      n * r2 + (FEE_RATE_DENOMINATOR_VALUE - r2) - 1 := by
    have h1 : n * r2 = n * r1 + n * (r2 - r1) := by
      rw [← Nat.mul_add, Nat.add_sub_cancel' hr12]
    have h2 : r2 - r1 ≤ n * (r2 - r1) := by
      calc r2 - r1 = 1 * (r2 - r1) := (Nat.one_mul _).symm
        _ ≤ n * (r2 - r1) := Nat.mul_le_mul_right _ hn
    omega
  exact Nat.div_le_div hnum (Nat.sub_le_sub_left hr12 _) (by omega)

theorem amount0ForMove_pos {L : ℕ} {p t : ℚ} (hL : 0 < L) (ht : 0 < t) (htp : t < p) :
    0 < amount0ForMove L p t := by
  unfold amount0ForMove
  have hp : 0 < p := lt_trans ht htp
  apply div_pos
  · apply mul_pos
    · exact_mod_cast hL
    · linarith
  · exact mul_pos hp ht

theorem priceAfterIn0_pos {L : ℕ} {p x : ℚ} (hL : 0 < L) (hp : 0 < p) (hx : 0 ≤ x) :
    0 < priceAfterIn0 L p x := by
  unfold priceAfterIn0
  have hLq : (0:ℚ) < L := by exact_mod_cast hL
  apply div_pos (mul_pos hLq hp)
  have : 0 ≤ x * p := mul_nonneg hx (le_of_lt hp)
  linarith

theorem priceAfterIn0_le {L : ℕ} {p x : ℚ} (hL : 0 < L) (hp : 0 < p) (hx : 0 ≤ x) :
    priceAfterIn0 L p x ≤ p := by
  unfold priceAfterIn0
  have hLq : (0:ℚ) < L := by exact_mod_cast hL
  have hden : (0:ℚ) < L + x * p := by
    have : 0 ≤ x * p := mul_nonneg hx (le_of_lt hp)
    linarith
  rw [div_le_iff₀ hden]
  have : 0 ≤ x * p * p := mul_nonneg (mul_nonneg hx (le_of_lt hp)) (le_of_lt hp)
  nlinarith

theorem priceAfterIn0_antitone {L : ℕ} {p x1 x2 : ℚ} (hL : 0 < L) (hp : 0 < p)
    (hx1 : 0 ≤ x1) (hx : x1 ≤ x2) : priceAfterIn0 L p x2 ≤ priceAfterIn0 L p x1 := by
  unfold priceAfterIn0
  have hLq : (0:ℚ) < L := by exact_mod_cast hL
  have hden1 : (0:ℚ) < L + x1 * p := by
    have : 0 ≤ x1 * p := mul_nonneg hx1 (le_of_lt hp)
    linarith
  apply div_le_div_of_nonneg_left (le_of_lt (mul_pos hLq hp)) hden1
  have : x1 * p ≤ x2 * p := mul_le_mul_of_nonneg_right hx (le_of_lt hp)
  linarith

/-- Consuming exactly the segment's required net input moves the price
exactly to the target. -/
theorem priceAfterIn0_at_needed {L : ℕ} {p t : ℚ} (hL : 0 < L) (hp : 0 < p) (ht : 0 < t) :
    priceAfterIn0 L p (amount0ForMove L p t) = t := by
  unfold priceAfterIn0 amount0ForMove
  have hLq : (0:ℚ) < L := by exact_mod_cast hL
  rw [div_eq_iff]
  · field_simp
    ring
  · intro hc
    have h1 : (L:ℚ) + L * (p - t) / (p * t) * p = L * p / t := by
      field_simp
      ring
    rw [h1] at hc
    have := div_pos (mul_pos hLq hp) ht
    rw [hc] at this
    exact lt_irrefl 0 this

/-- The engine's target price for an iteration is strictly below the
current price and strictly positive (given a positive limit). -/
theorem nextTickDown_lt {p : ℚ} : ∀ {ticks : List (ℤ × ℤ)} {i n : ℤ},
    nextTickDown p ticks = some (i, n) → sqrt_price_from_tick i < p := by
  intro ticks
  induction ticks with
  | nil => intro i n h; simp [nextTickDown] at h
  | cons hd tl ih =>
    intro i n h
    obtain ⟨j, m⟩ := hd
    simp only [nextTickDown] at h
    by_cases hj : sqrt_price_from_tick j < p
    · rw [if_pos hj] at h
      cases hr : nextTickDown p tl with
      | none => rw [hr] at h; simp at h; rw [← h.1]; exact hj
      | some v =>
        obtain ⟨j2, m2⟩ := v
        rw [hr] at h
        simp only at h
        by_cases hlt : j2 < j
        · rw [if_pos hlt] at h; simp at h; rw [← h.1]; exact hj
        · rw [if_neg hlt] at h; simp at h
          have := ih hr
          rw [← h.1]; exact this
    · rw [if_neg hj] at h
      exact ih h

theorem chargeFee_sqrtPrice (f pr : ℕ) (st : SwapPool) :
    (chargeFee f pr st).sqrtPrice = st.sqrtPrice := rfl

theorem chargeFee_liquidity (f pr : ℕ) (st : SwapPool) :
    (chargeFee f pr st).liquidity = st.liquidity := rfl

theorem chargeFee_ticks (f pr : ℕ) (st : SwapPool) :
    (chargeFee f pr st).ticks = st.ticks := rfl

theorem moveAndCross_sqrtPrice (t : ℚ) (tk : Option (ℤ × ℤ)) (st : SwapPool) :
    (moveAndCross t tk st).sqrtPrice = t := by
  cases tk with
  | none => rfl
  | some v =>
    obtain ⟨i, n⟩ := v
    simp only [moveAndCross]
    split_ifs <;> rfl

theorem moveAndCross_ticks (t : ℚ) (tk : Option (ℤ × ℤ)) (st : SwapPool) :
    (moveAndCross t tk st).ticks = st.ticks := by
  cases tk with
  | none => rfl
  | some v =>
    obtain ⟨i, n⟩ := v
    simp only [moveAndCross]
    split_ifs <;> rfl

theorem moveAndCross_liquidity_congr (t : ℚ) (tk : Option (ℤ × ℤ)) {st1 st2 : SwapPool}
    (h : st1.liquidity = st2.liquidity) :
    (moveAndCross t tk st1).liquidity = (moveAndCross t tk st2).liquidity := by
  cases tk with
  | none => exact h
  | some v =>
    obtain ⟨i, n⟩ := v
    simp only [moveAndCross]
    split_ifs <;> simp [h]

theorem amount1Out_nonneg {L : ℕ} {p q : ℚ} (h : q ≤ p) : 0 ≤ amount1Out L p q := by
  unfold amount1Out
  apply mul_nonneg (by positivity)
  linarith

theorem amount1Out_mono {L : ℕ} {p q1 q2 : ℚ} (h : q1 ≤ q2) :
    amount1Out L p q2 ≤ amount1Out L p q1 := by
  unfold amount1Out
  apply mul_le_mul_of_nonneg_left _ (by positivity)
  linarith

theorem segTarget_pos {limit : ℚ} (hlimit : 0 < limit) (tk : Option (ℤ × ℤ)) :
    0 < segTarget limit tk := by
  cases tk with
  | none => exact hlimit
  | some v =>
    obtain ⟨i, n⟩ := v
    exact lt_max_of_lt_left (sqrt_price_pos i)

theorem segTarget_lt {p limit : ℚ} {ticks : List (ℤ × ℤ)} {tk : Option (ℤ × ℤ)}
    (h : nextTickDown p ticks = tk) (hlim : limit < p) : segTarget limit tk < p := by
  cases tk with
  | none => exact hlim
  | some v =>
    obtain ⟨i, n⟩ := v
    exact max_lt (nextTickDown_lt h) hlim

/-- The token1 output accumulated by the swap loop is nonnegative. -/
theorem swapLoop_out_nonneg (r prot : ℕ) (limit : ℚ) (hlimit : 0 < limit) :
    ∀ (fuel : ℕ) (st : SwapPool) (rem : ℕ), 0 < st.sqrtPrice →
      0 ≤ (swapLoop r prot limit fuel st rem).2.1 := by
  intro fuel
  induction fuel with
  | zero => intro st rem _; simp [swapLoop]
  | succ fuel ih =>
    intro st rem hp
    rw [swapLoop]
    by_cases hstop : rem = 0 ∨ st.sqrtPrice ≤ limit
    · rw [if_pos hstop]
    · rw [if_neg hstop]
      push_neg at hstop
      obtain ⟨hrem, hlim⟩ := hstop
      dsimp only []
      have htgt_pos : 0 < segTarget limit (nextTickDown st.sqrtPrice st.ticks) :=
        segTarget_pos hlimit _
      have htgt_lt : segTarget limit (nextTickDown st.sqrtPrice st.ticks) < st.sqrtPrice :=
        segTarget_lt rfl hlim
      by_cases hliq : st.liquidity = 0
      · rw [if_pos hliq]
        apply ih
        rw [moveAndCross_sqrtPrice]
        exact htgt_pos
      · rw [if_neg hliq]
        have hLpos : 0 < st.liquidity := Nat.pos_of_ne_zero hliq
        by_cases hmid : rem - rem * r / FEE_RATE_DENOMINATOR_VALUE <
            (Int.ceil (amount0ForMove st.liquidity st.sqrtPrice
              (segTarget limit (nextTickDown st.sqrtPrice st.ticks)))).toNat
        · rw [if_pos hmid]
          dsimp only []
          exact amount1Out_nonneg (priceAfterIn0_le hLpos hp (by positivity))
        · rw [if_neg hmid]
          dsimp only []
          refine add_nonneg (amount1Out_nonneg (le_of_lt htgt_lt)) ?_
          apply ih
          rw [moveAndCross_sqrtPrice]
          exact htgt_pos

theorem rem_after_gross_mono {a1 a2 rem1 rem2 : ℕ} (ha : a1 ≤ a2) (hrem : rem2 ≤ rem1) :
    rem2 - min a2 rem2 ≤ rem1 - min a1 rem1 := by
  rw [Nat.min_def, Nat.min_def]
  split_ifs <;> omega

/-- The token1 output of the swap loop is antitone in the trade fee rate
and monotone in the remaining input, for two runs over the same price,
liquidity and tick set. -/
theorem swapLoop_out_antitone (r1 r2 prot1 prot2 : ℕ) (limit : ℚ)
    (hr12 : r1 ≤ r2) (hr2 : r2 < FEE_RATE_DENOMINATOR_VALUE) (hlimit : 0 < limit) :
    ∀ (fuel : ℕ) (st1 st2 : SwapPool) (rem1 rem2 : ℕ),
      st1.sqrtPrice = st2.sqrtPrice → st1.liquidity = st2.liquidity →
      st1.ticks = st2.ticks → 0 < st1.sqrtPrice → rem2 ≤ rem1 →
      (swapLoop r2 prot2 limit fuel st2 rem2).2.1 ≤
        (swapLoop r1 prot1 limit fuel st1 rem1).2.1 := by
  intro fuel
  induction fuel with
  | zero => intro st1 st2 rem1 rem2 _ _ _ _ _; simp [swapLoop]
  | succ fuel ih =>
    intro st1 st2 rem1 rem2 hpeq hleq hteq hp hrem
    by_cases hstop2 : rem2 = 0 ∨ st2.sqrtPrice ≤ limit
    · have h2 : (swapLoop r2 prot2 limit (fuel + 1) st2 rem2).2.1 = 0 := by
        rw [swapLoop, if_pos hstop2]
      rw [h2]
      exact swapLoop_out_nonneg r1 prot1 limit hlimit (fuel + 1) st1 rem1 hp
    · push_neg at hstop2
      obtain ⟨hrem2, hlim2⟩ := hstop2
      have hlim1 : limit < st1.sqrtPrice := by rw [hpeq]; exact hlim2
      have hrem1 : rem1 ≠ 0 := by omega
      have hcond2 : ¬(rem2 = 0 ∨ st2.sqrtPrice ≤ limit) := by push_neg; exact ⟨hrem2, hlim2⟩
      have hcond1 : ¬(rem1 = 0 ∨ st1.sqrtPrice ≤ limit) := by push_neg; exact ⟨hrem1, hlim1⟩
      rw [swapLoop, swapLoop, if_neg hcond2, if_neg hcond1]
      dsimp only []
      rw [← hpeq, ← hleq, ← hteq]
      have htgt_pos : 0 < segTarget limit (nextTickDown st1.sqrtPrice st1.ticks) :=
        segTarget_pos hlimit _
      have htgt_lt : segTarget limit (nextTickDown st1.sqrtPrice st1.ticks) < st1.sqrtPrice :=
        segTarget_lt rfl hlim1
      by_cases hliq : st1.liquidity = 0
      · simp only [if_pos hliq]
        apply ih
        · rw [moveAndCross_sqrtPrice, moveAndCross_sqrtPrice]
        · exact moveAndCross_liquidity_congr _ _ hleq
        · rw [moveAndCross_ticks, moveAndCross_ticks]; exact hteq
        · rw [moveAndCross_sqrtPrice]; exact htgt_pos
        · exact hrem
      · simp only [if_neg hliq]
        have hLpos : 0 < st1.liquidity := Nat.pos_of_ne_zero hliq
        have hneed_pos : 0 < amount0ForMove st1.liquidity st1.sqrtPrice
            (segTarget limit (nextTickDown st1.sqrtPrice st1.ticks)) :=
          amount0ForMove_pos hLpos htgt_pos htgt_lt
        have hceil_pos : 0 < Int.ceil (amount0ForMove st1.liquidity st1.sqrtPrice
            (segTarget limit (nextTickDown st1.sqrtPrice st1.ticks))) :=
          Int.ceil_pos.mpr hneed_pos
        have hnceil1 : 1 ≤ (Int.ceil (amount0ForMove st1.liquidity st1.sqrtPrice
            (segTarget limit (nextTickDown st1.sqrtPrice st1.ticks)))).toNat := by omega
        have heff : rem2 - rem2 * r2 / FEE_RATE_DENOMINATOR_VALUE ≤
            rem1 - rem1 * r1 / FEE_RATE_DENOMINATOR_VALUE :=
          eff_mono hr12 (le_of_lt hr2) hrem
        by_cases hmid2 : rem2 - rem2 * r2 / FEE_RATE_DENOMINATOR_VALUE <
            (Int.ceil (amount0ForMove st1.liquidity st1.sqrtPrice
              (segTarget limit (nextTickDown st1.sqrtPrice st1.ticks)))).toNat
        · have heff2need : ((rem2 - rem2 * r2 / FEE_RATE_DENOMINATOR_VALUE : ℕ) : ℚ) <
              amount0ForMove st1.liquidity st1.sqrtPrice
                (segTarget limit (nextTickDown st1.sqrtPrice st1.ticks)) := by
            have hz : ((rem2 - rem2 * r2 / FEE_RATE_DENOMINATOR_VALUE : ℕ) : ℤ) <
                Int.ceil (amount0ForMove st1.liquidity st1.sqrtPrice
                  (segTarget limit (nextTickDown st1.sqrtPrice st1.ticks))) := by
              omega
            have := Int.lt_ceil.mp hz
            exact_mod_cast this
          rw [if_pos hmid2]
          by_cases hmid1 : rem1 - rem1 * r1 / FEE_RATE_DENOMINATOR_VALUE <
              (Int.ceil (amount0ForMove st1.liquidity st1.sqrtPrice
                (segTarget limit (nextTickDown st1.sqrtPrice st1.ticks)))).toNat
          · rw [if_pos hmid1]
            dsimp only []
            apply amount1Out_mono
            exact priceAfterIn0_antitone hLpos hp (by positivity) (by exact_mod_cast heff)
          · rw [if_neg hmid1]
            dsimp only []
            have h1 : amount1Out st1.liquidity st1.sqrtPrice
                (priceAfterIn0 st1.liquidity st1.sqrtPrice
                  ((rem2 - rem2 * r2 / FEE_RATE_DENOMINATOR_VALUE : ℕ) : ℚ)) ≤
                amount1Out st1.liquidity st1.sqrtPrice
                  (segTarget limit (nextTickDown st1.sqrtPrice st1.ticks)) := by
              apply amount1Out_mono
              calc segTarget limit (nextTickDown st1.sqrtPrice st1.ticks)
                  = priceAfterIn0 st1.liquidity st1.sqrtPrice
                      (amount0ForMove st1.liquidity st1.sqrtPrice
                        (segTarget limit (nextTickDown st1.sqrtPrice st1.ticks))) :=
                    (priceAfterIn0_at_needed hLpos hp htgt_pos).symm
                _ ≤ priceAfterIn0 st1.liquidity st1.sqrtPrice
                      ((rem2 - rem2 * r2 / FEE_RATE_DENOMINATOR_VALUE : ℕ) : ℚ) :=
                    priceAfterIn0_antitone hLpos hp (by positivity) (le_of_lt heff2need)
            have h2 : 0 ≤ (swapLoop r1 prot1 limit fuel
                (moveAndCross (segTarget limit (nextTickDown st1.sqrtPrice st1.ticks))
                  (nextTickDown st1.sqrtPrice st1.ticks)
                  (chargeFee (feeForNet r1 (Int.ceil (amount0ForMove st1.liquidity
                    st1.sqrtPrice (segTarget limit
                      (nextTickDown st1.sqrtPrice st1.ticks)))).toNat) prot1 st1))
                (rem1 - min ((Int.ceil (amount0ForMove st1.liquidity st1.sqrtPrice
                  (segTarget limit (nextTickDown st1.sqrtPrice st1.ticks)))).toNat +
                    feeForNet r1 (Int.ceil (amount0ForMove st1.liquidity st1.sqrtPrice
                      (segTarget limit (nextTickDown st1.sqrtPrice st1.ticks)))).toNat)
                  rem1)).2.1 := by
              apply swapLoop_out_nonneg r1 prot1 limit hlimit
              rw [moveAndCross_sqrtPrice]
              exact htgt_pos
            linarith
        · rw [if_neg hmid2]
          have hmid1 : ¬ (rem1 - rem1 * r1 / FEE_RATE_DENOMINATOR_VALUE <
              (Int.ceil (amount0ForMove st1.liquidity st1.sqrtPrice
                (segTarget limit (nextTickDown st1.sqrtPrice st1.ticks)))).toNat) := by
            omega
          rw [if_neg hmid1]
          dsimp only []
          apply add_le_add_left
          apply ih
          · rw [moveAndCross_sqrtPrice, moveAndCross_sqrtPrice]
          · apply moveAndCross_liquidity_congr
            rw [chargeFee_liquidity, chargeFee_liquidity]; exact hleq
          · rw [moveAndCross_ticks, moveAndCross_ticks, chargeFee_ticks, chargeFee_ticks]
            exact hteq
          · rw [moveAndCross_sqrtPrice]; exact htgt_pos
          · exact rem_after_gross_mono
              (Nat.add_le_add_left (feeForNet_mono hnceil1 hr12 hr2) _) hrem

theorem swap_zero_amount (st : SwapPool) (limit : ℚ) :
    swap st 0 0 limit = .ok (st, 0, 0) := by
  unfold swap
  rw [swapLoop, if_pos (Or.inl rfl)]
  simp

theorem swap_zero_amount_pos_threshold (st : SwapPool) {thr : ℕ} (limit : ℚ) (h : 0 < thr) :
    swap st 0 thr limit = .error .slippageExceeded := by
  unfold swap
  rw [swapLoop, if_pos (Or.inl rfl)]
  simp [h]

/-! ## Position operations and per-tick liquidity accounting
(spec sections 3, 4.3 and 4.4)

The position instruction handlers (`open_position`, `close_position`,
`increase_liquidity`, `decrease_liquidity`) and the tick/liquidity
libraries are not under `src/` (only their entry points in `lib.rs`
are); they are modelled from the spec. -/

/-- A position entry: its range and current liquidity (spec section 3,
Position). -/
structure PosEntry where
  lower : ℤ
  upper : ℤ
  liquidity : ℕ
deriving DecidableEq, Repr

/-- The per-pool tick table together with the pool's positions: the set
of ticks ever touched, each tick's liquidity-net and liquidity-gross
(spec section 3, Tick; a tick with zero gross is uninitialized), and the
list of open positions. -/
structure TickState where
  support : Finset ℤ
  net : ℤ → ℤ
  gross : ℤ → ℤ
  positions : List PosEntry

/-- The empty tick table: no tick initialized, no position. -/
def tickInit : TickState :=
  { support := ∅, net := fun _ => 0, gross := fun _ => 0, positions := [] }

/-- Modelled from the spec: `amounts_for_liquidity` (LiquidityMath, spec
section 4.4): the token amounts corresponding to a liquidity delta over
a range, split in three cases by the position of the current price;
amounts required from a depositor round up, amounts returned to a
withdrawer round down. -/
def amountsForLiquidity (roundUp : Bool) (L : ℕ) (p pa pb : ℚ) : ℕ × ℕ :=
  let a0q : ℚ :=
    if p ≤ pa then (L : ℚ) * (pb - pa) / (pa * pb)
    else if p < pb then (L : ℚ) * (pb - p) / (p * pb)
    else 0
  let a1q : ℚ :=
    if p ≤ pa then 0
    else if p < pb then (L : ℚ) * (p - pa)
    else (L : ℚ) * (pb - pa)
  if roundUp then ((Int.ceil a0q).toNat, (Int.ceil a1q).toNat)
  else ((Int.floor a0q).toNat, (Int.floor a1q).toNat)

/-- Apply a liquidity delta `d` over the range [lower, upper] to the
tick table (spec section 3, Tick): liquidity-net gains `d` at the lower
tick and loses `d` at the upper tick, liquidity-gross gains `d` at
both. -/
def applyLiquidityDelta (lower upper : ℤ) (d : ℤ) (s : TickState) : TickState :=
  { support := insert lower (insert upper s.support)
    net := fun i => s.net i + (if lower = i then d else 0) - (if upper = i then d else 0)
    gross := fun i => s.gross i + (if lower = i then d else 0) + (if upper = i then d else 0)
    positions := s.positions }

/-- The position operations (entry points in
`src/programs/amm/src/lib.rs`: `open_position`, `close_position`,
`increase_liquidity`, `decrease_liquidity`). -/
inductive PosOp
  | openPos (tickLower tickUpper : ℤ) (liquidity : ℕ) (amount0Max amount1Max : ℕ)
  | closePos (idx : ℕ)
  | increaseLiquidity (idx : ℕ) (liquidity : ℕ) (amount0Max amount1Max : ℕ)
  | decreaseLiquidity (idx : ℕ) (liquidity : ℕ) (amount0Min amount1Min : ℕ)
deriving DecidableEq, Repr

/-- Modelled from the spec: the position instruction handlers (not under
`src/`).  Opening requires a valid range aligned to the tick spacing
(spec section 3, Position invariant); adding liquidity computes the
deposit amounts (rounded up) and fails with a slippage error when a
caller-supplied max bound is exceeded; removing liquidity computes the
withdrawal amounts (rounded down) and fails with a slippage error when
a caller-supplied min bound is violated (spec section 4.4); closing
requires the position's liquidity to be zero.  All checks precede any
state mutation (spec section 5, atomicity). -/
def posStep (spacing : ℕ) (price : ℚ) (s : TickState) : PosOp → Except AmmError TickState
  | .openPos lo hi L max0 max1 =>
    if ¬ (MIN_TICK ≤ lo ∧ lo < hi ∧ hi ≤ MAX_TICK) then .error .outOfRange
    else if ¬ ((spacing : ℤ) ∣ lo ∧ (spacing : ℤ) ∣ hi) then .error .validation
    else
      let a := amountsForLiquidity true L price (sqrt_price_from_tick lo) (sqrt_price_from_tick hi)
      if max0 < a.1 ∨ max1 < a.2 then .error .slippageExceeded
      else .ok { (applyLiquidityDelta lo hi (L : ℤ) s) with
        positions := ⟨lo, hi, L⟩ :: s.positions }
  | .closePos i =>
    match s.positions[i]? with
    | none => .error .validation
    | some p =>
      if p.liquidity ≠ 0 then .error .stateConflict
      else .ok { s with positions := s.positions.eraseIdx i }
  | .increaseLiquidity i L max0 max1 =>
    match s.positions[i]? with
    | none => .error .validation
    | some p =>
      let a := amountsForLiquidity true L price
        (sqrt_price_from_tick p.lower) (sqrt_price_from_tick p.upper)
      if max0 < a.1 ∨ max1 < a.2 then .error .slippageExceeded
      else .ok { (applyLiquidityDelta p.lower p.upper (L : ℤ) s) with
        positions := s.positions.set i { p with liquidity := p.liquidity + L } }
  | .decreaseLiquidity i L min0 min1 =>
    match s.positions[i]? with
    | none => .error .validation
    | some p =>
      if p.liquidity < L then .error .validation
      else
        let a := amountsForLiquidity false L price
          (sqrt_price_from_tick p.lower) (sqrt_price_from_tick p.upper)
        if a.1 < min0 ∨ a.2 < min1 then .error .slippageExceeded
        else .ok { (applyLiquidityDelta p.lower p.upper (-(L : ℤ)) s) with
          positions := s.positions.set i { p with liquidity := p.liquidity - L } }

/-- The state committed after a position operation: the new state on
success; on failure the transaction reverts, leaving the pre-state (spec
section 5, atomicity). -/
def posCommit (spacing : ℕ) (price : ℚ) (s : TickState) (op : PosOp) : TickState :=
  match posStep spacing price s op with
  | .ok s2 => s2
  | .error _ => s

/-- Run a finite sequence of position operations from a state. -/
def posRun (spacing : ℕ) (price : ℚ) (s : TickState) (ops : List PosOp) : TickState :=
  ops.foldl (posCommit spacing price) s

/-! ### The liquidity-net bookkeeping invariant (spec section 3, Tick) -/

/-- The liquidity-net contribution of one position at tick `i`. -/
def posEntryNet (p : PosEntry) (i : ℤ) : ℤ :=
  (if p.lower = i then (p.liquidity : ℤ) else 0) - (if p.upper = i then (p.liquidity : ℤ) else 0)

/-- The liquidity-gross contribution of one position at tick `i`. -/
def posEntryGross (p : PosEntry) (i : ℤ) : ℤ :=
  (if p.lower = i then (p.liquidity : ℤ) else 0) + (if p.upper = i then (p.liquidity : ℤ) else 0)

/-- The liquidity-net a tick should carry, derived from the open
positions. -/
def posNetAt (ps : List PosEntry) (i : ℤ) : ℤ := (ps.map (fun p => posEntryNet p i)).sum

/-- The liquidity-gross a tick should carry, derived from the open
positions. -/
def posGrossAt (ps : List PosEntry) (i : ℤ) : ℤ := (ps.map (fun p => posEntryGross p i)).sum

/-- The tick table is consistent with the open positions: every tick's
stored net and gross equal the sums of the position contributions, and
every position's boundary ticks are tracked in the support. -/
def TickInv (s : TickState) : Prop :=
  (∀ i, s.net i = posNetAt s.positions i) ∧
  (∀ i, s.gross i = posGrossAt s.positions i) ∧
  (∀ p ∈ s.positions, p.lower ∈ s.support ∧ p.upper ∈ s.support)

theorem tickInit_inv : TickInv tickInit := by
  refine ⟨fun i => ?_, fun i => ?_, fun p hp => ?_⟩
  · simp [tickInit, posNetAt]
  · simp [tickInit, posGrossAt]
  · simp [tickInit] at hp

theorem map_sum_set (f : PosEntry → ℤ) :
    ∀ (ps : List PosEntry) (i : ℕ) (p q : PosEntry), ps[i]? = some p →
      ((ps.set i q).map f).sum = (ps.map f).sum - f p + f q := by
  intro ps
  induction ps with
  | nil => intro i p q h; simp at h
  | cons hd tl ih =>
    intro i p q h
    cases i with
    | zero =>
      simp only [List.getElem?_cons_zero, Option.some.injEq] at h
      subst h
      simp only [List.set, List.map_cons, List.sum_cons]
      ring
    | succ j =>
      simp only [List.getElem?_cons_succ] at h
      simp only [List.set, List.map_cons, List.sum_cons, ih j p q h]
      ring

theorem map_sum_eraseIdx (f : PosEntry → ℤ) :
    ∀ (ps : List PosEntry) (i : ℕ) (p : PosEntry), ps[i]? = some p →
      ((ps.eraseIdx i).map f).sum = (ps.map f).sum - f p := by
  intro ps
  induction ps with
  | nil => intro i p h; simp at h
  | cons hd tl ih =>
    intro i p h
    cases i with
    | zero =>
      simp only [List.getElem?_cons_zero, Option.some.injEq] at h
      subst h
      simp only [List.eraseIdx, List.map_cons, List.sum_cons]
      ring
    | succ j =>
      simp only [List.getElem?_cons_succ] at h
      simp only [List.eraseIdx, List.map_cons, List.sum_cons, ih j p h]
      ring

theorem posGrossAt_nonneg (ps : List PosEntry) (i : ℤ) : 0 ≤ posGrossAt ps i := by
  unfold posGrossAt
  apply List.sum_nonneg
  intro x hx
  simp only [List.mem_map] at hx
  obtain ⟨p, _, hpx⟩ := hx
  rw [← hpx]
  unfold posEntryGross
  split_ifs <;> simp

theorem posEntryGross_nonneg (p : PosEntry) (i : ℤ) : 0 ≤ posEntryGross p i := by
  unfold posEntryGross
  split_ifs <;> simp

theorem gross_zero_net_zero {ps : List PosEntry} {i : ℤ} (h : posGrossAt ps i = 0) :
    posNetAt ps i = 0 := by
  induction ps with
  | nil => simp [posNetAt]
  | cons p ps ih =>
    have hcons : posGrossAt (p :: ps) i = posEntryGross p i + posGrossAt ps i := by
      simp [posGrossAt]
    rw [hcons] at h
    have h1 : posEntryGross p i = 0 ∧ posGrossAt ps i = 0 := by
      have := posEntryGross_nonneg p i
      have := posGrossAt_nonneg ps i
      omega
    have hnetp : posEntryNet p i = 0 := by
      have := h1.1
      unfold posEntryGross at this
      unfold posEntryNet
      split_ifs at this ⊢ <;> omega
    have hcons2 : posNetAt (p :: ps) i = posEntryNet p i + posNetAt ps i := by
      simp [posNetAt]
    rw [hcons2, hnetp, ih h1.2]
    simp

theorem sum_posNetAt (t : Finset ℤ) :
    ∀ (ps : List PosEntry), (∀ p ∈ ps, p.lower ∈ t ∧ p.upper ∈ t) →
      (t.sum fun i => posNetAt ps i) = 0 := by
  intro ps
  induction ps with
  | nil => intro _; simp [posNetAt]
  | cons p ps ih =>
    intro hend
    have h1 : (t.sum fun i => posNetAt (p :: ps) i) =
        (t.sum fun i => posEntryNet p i) + (t.sum fun i => posNetAt ps i) := by
      rw [← Finset.sum_add_distrib]
      apply Finset.sum_congr rfl
      intro i _
      simp [posNetAt]
    have hm := hend p (List.mem_cons_self p ps)
    have h2 : (t.sum fun i => posEntryNet p i) = 0 := by
      unfold posEntryNet
      rw [Finset.sum_sub_distrib, Finset.sum_ite_eq, Finset.sum_ite_eq]
      simp [hm.1, hm.2]
    rw [h1, h2, ih (fun q hq => hend q (List.mem_cons_of_mem _ hq))]
    simp

theorem inv_open {s : TickState} {lo hi : ℤ} {L : ℕ} (hInv : TickInv s) :
    TickInv { (applyLiquidityDelta lo hi (L : ℤ) s) with
      positions := ⟨lo, hi, L⟩ :: s.positions } := by
  obtain ⟨hnet, hgross, hsup⟩ := hInv
  refine ⟨fun i => ?_, fun i => ?_, fun p hp => ?_⟩
  · simp only [applyLiquidityDelta, posNetAt, List.map_cons, List.sum_cons, posEntryNet, hnet i]
    ring
  · simp only [applyLiquidityDelta, posGrossAt, List.map_cons, List.sum_cons, posEntryGross,
      hgross i]
    ring
  · simp only [applyLiquidityDelta, List.mem_cons] at hp ⊢
    cases hp with
    | inl h =>
      subst h
      exact ⟨Finset.mem_insert_self _ _,
        Finset.mem_insert_of_mem (Finset.mem_insert_self _ _)⟩
    | inr h =>
      have := hsup p h
      exact ⟨Finset.mem_insert_of_mem (Finset.mem_insert_of_mem this.1),
        Finset.mem_insert_of_mem (Finset.mem_insert_of_mem this.2)⟩

theorem inv_modify {s : TickState} {i : ℕ} {p q : PosEntry} {d : ℤ}
    (hidx : s.positions[i]? = some p) (hlo : q.lower = p.lower) (hup : q.upper = p.upper)
    (hd : (q.liquidity : ℤ) = (p.liquidity : ℤ) + d) (hInv : TickInv s) :
    TickInv { (applyLiquidityDelta p.lower p.upper d s) with
      positions := s.positions.set i q } := by
  obtain ⟨hnet, hgross, hsup⟩ := hInv
  refine ⟨fun j => ?_, fun j => ?_, fun p2 hp2 => ?_⟩
  · simp only [applyLiquidityDelta, posNetAt, hnet j]
    rw [map_sum_set _ _ _ _ _ hidx]
    simp only [posEntryNet, hlo, hup, hd]
    by_cases h1 : p.lower = j <;> by_cases h2 : p.upper = j <;> simp [h1, h2] <;> ring
  · simp only [applyLiquidityDelta, posGrossAt, hgross j]
    rw [map_sum_set _ _ _ _ _ hidx]
    simp only [posEntryGross, hlo, hup, hd]
    by_cases h1 : p.lower = j <;> by_cases h2 : p.upper = j <;> simp [h1, h2] <;> ring
  · simp only [applyLiquidityDelta] at hp2 ⊢
    cases List.mem_or_eq_of_mem_set hp2 with
    | inl h =>
      have := hsup p2 h
      exact ⟨Finset.mem_insert_of_mem (Finset.mem_insert_of_mem this.1),
        Finset.mem_insert_of_mem (Finset.mem_insert_of_mem this.2)⟩
    | inr h =>
      subst h
      have := hsup p (List.getElem?_mem hidx)
      rw [hlo, hup]
      exact ⟨Finset.mem_insert_of_mem (Finset.mem_insert_of_mem this.1),
        Finset.mem_insert_of_mem (Finset.mem_insert_of_mem this.2)⟩

theorem inv_close {s : TickState} {i : ℕ} {p : PosEntry}
    (hidx : s.positions[i]? = some p) (hliq : p.liquidity = 0) (hInv : TickInv s) :
    TickInv { s with positions := s.positions.eraseIdx i } := by
  obtain ⟨hnet, hgross, hsup⟩ := hInv
  have hnet0 : posEntryNet p = fun _ => 0 := by
    funext j
    simp [posEntryNet, hliq]
  have hgross0 : posEntryGross p = fun _ => 0 := by
    funext j
    simp [posEntryGross, hliq]
  refine ⟨fun j => ?_, fun j => ?_, fun p2 hp2 => ?_⟩
  · simp only [posNetAt] at hnet ⊢
    rw [map_sum_eraseIdx _ _ _ _ hidx, hnet j, hnet0]
    simp
  · simp only [posGrossAt] at hgross ⊢
    rw [map_sum_eraseIdx _ _ _ _ hidx, hgross j, hgross0]
    simp
  · exact hsup p2 (List.mem_of_mem_eraseIdx hp2)

/-- Every successful position operation preserves the tick-table
invariant. -/
theorem posStep_ok_inv {spacing : ℕ} {price : ℚ} {s s2 : TickState} {op : PosOp}
    (hInv : TickInv s) (h : posStep spacing price s op = .ok s2) : TickInv s2 := by
  cases op with
  | openPos lo hi L max0 max1 =>
    simp only [posStep] at h
    split_ifs at h
    all_goals first
    | exact Except.noConfusion h
    | (rw [Except.ok.injEq] at h; rw [← h]; exact inv_open hInv)
  | closePos i =>
    simp only [posStep] at h
    cases hidx : s.positions[i]? with
    | none => rw [hidx] at h; exact Except.noConfusion h
    | some p =>
      rw [hidx] at h
      dsimp only [] at h
      split_ifs at h
      all_goals first
      | exact Except.noConfusion h
      | (rw [Except.ok.injEq] at h; rw [← h]; exact inv_close hidx (by omega) hInv)
  | increaseLiquidity i L max0 max1 =>
    simp only [posStep] at h
    cases hidx : s.positions[i]? with
    | none => rw [hidx] at h; exact Except.noConfusion h
    | some p =>
      rw [hidx] at h
      dsimp only [] at h
      split_ifs at h
      all_goals first
      | exact Except.noConfusion h
      | (rw [Except.ok.injEq] at h; rw [← h];
         exact inv_modify hidx rfl rfl (by push_cast; ring) hInv)
  | decreaseLiquidity i L min0 min1 =>
    simp only [posStep] at h
    cases hidx : s.positions[i]? with
    | none => rw [hidx] at h; exact Except.noConfusion h
    | some p =>
      rw [hidx] at h
      dsimp only [] at h
      split_ifs at h
      all_goals first
      | exact Except.noConfusion h
      | (rw [Except.ok.injEq] at h; rw [← h];
         refine inv_modify hidx rfl rfl ?_ hInv
         have hle : L ≤ p.liquidity := by omega
         push_cast [hle]
         ring)

theorem posCommit_inv {spacing : ℕ} {price : ℚ} {s : TickState} {op : PosOp}
    (hInv : TickInv s) : TickInv (posCommit spacing price s op) := by
  unfold posCommit
  cases h : posStep spacing price s op with
  | ok s2 => exact posStep_ok_inv hInv h
  | error e => exact hInv

theorem posRun_inv {spacing : ℕ} {price : ℚ} :
    ∀ (ops : List PosOp) (s : TickState), TickInv s →
      TickInv (posRun spacing price s ops) := by
  intro ops
  induction ops with
  | nil => intro s h; exact h
  | cons op ops ih =>
    intro s h
    exact ih _ (posCommit_inv h)

/-- The invariant gives the spec's conservation law: the liquidity-net
values summed over all initialized ticks (nonzero liquidity-gross)
vanish. -/
theorem tick_net_sum_zero {s : TickState} (hInv : TickInv s) :
    ((s.support.filter fun i => s.gross i ≠ 0).sum s.net) = 0 := by
  obtain ⟨hnet, hgross, hsup⟩ := hInv
  have hfe : (s.support.filter fun i => s.gross i ≠ 0) =
      s.support.filter fun i => posGrossAt s.positions i ≠ 0 := by
    apply Finset.filter_congr
    intro i _
    rw [hgross i]
  rw [hfe]
  have h1 : ((s.support.filter fun i => posGrossAt s.positions i ≠ 0).sum s.net) =
      ((s.support.filter fun i => posGrossAt s.positions i ≠ 0).sum
        fun i => posNetAt s.positions i) :=
    Finset.sum_congr rfl (fun i _ => hnet i)
  have h2 : (Finset.filter (fun i => posGrossAt s.positions i ≠ 0) s.support).sum
      (fun i => posNetAt s.positions i) =
      s.support.sum (fun i => posNetAt s.positions i) :=
    Finset.sum_filter_of_ne (fun i _ hne => fun h0 => hne (gross_zero_net_zero h0))
  rw [h1, h2]
  exact sum_posNetAt s.support s.positions hsup

/-! ## The combined operation machine (spec sections 5 and 6) -/

instance {ε α : Type} [DecidableEq ε] [DecidableEq α] : DecidableEq (Except ε α) := fun a b =>
  match a, b with
  | .ok x, .ok y =>
    if h : x = y then .isTrue (by rw [h]) else .isFalse (fun c => by cases c; exact h rfl)
  | .error x, .error y =>
    if h : x = y then .isTrue (by rw [h]) else .isFalse (fun c => by cases c; exact h rfl)
  | .ok _, .error _ => .isFalse (fun c => by cases c)
  | .error _, .ok _ => .isFalse (fun c => by cases c)

/-- The combined mutable state of one pool deployment: the pool (absent
until `create_pool`), the tick/position table, and the reward streams
(spec section 3). -/
structure CState where
  pool : Option SwapPool
  ticksState : TickState
  rewards : List RewardInfo

/-- An externally-triggered operation (spec section 5): create pool,
swap, the position operations, reward update. -/
inductive COp
  | createPool (tickSpacing : ℕ) (sqrtPrice : ℚ)
  | position (op : PosOp)
  | doSwap (amount otherAmountThreshold : ℕ) (sqrtPriceLimit : ℚ)
  | setRewardParams (now idx emissionsPerSecondX64 openTime endTime : ℕ)
  | updateRewards (now : ℕ)

/-- Modelled from the spec: one externally-triggered operation of the
engine (spec sections 5 and 6), delegating to the modelled handlers:
pool creation uses the idempotent-create semantics (fails when the pool
already exists); position operations and swaps require the pool; reward
parameter updates address one stream by index.  Each operation either
completes and returns the new state or fails with an error and returns
no state. -/
def cStep (s : CState) : COp → Except AmmError CState
  | .createPool spacing p =>
    match s.pool with
    | some _ => .error .stateConflict
    | none => .ok { s with pool := some (
        { sqrtPrice := p, tickSpacing := spacing, liquidity := 0, feeGrowthGlobal0 := 0,
          protocolFeesToken0 := 0, tradeFeeRate := 0, protocolFeeRate := 0,
          ticks := [] } : SwapPool) }
  | .position op =>
    match s.pool with
    | none => .error .validation
    | some pl =>
      match posStep pl.tickSpacing pl.sqrtPrice s.ticksState op with
      | .error e => .error e
      | .ok ts2 => .ok { s with ticksState := ts2 }
  | .doSwap amount thr limit =>
    match s.pool with
    | none => .error .validation
    | some pl =>
      match swap pl amount thr limit with
      | .error e => .error e
      | .ok res => .ok { s with pool := some res.1 }
  | .setRewardParams now idx em ot et =>
    match s.rewards[idx]? with
    | none => .error .validation
    | some ri =>
      match set_reward_params now ri em ot et with
      | .error e => .error e
      | .ok ri2 => .ok { s with rewards := s.rewards.set idx ri2 }
  | .updateRewards now =>
    .ok { s with rewards := s.rewards.map (updateRewardInfo now
        (match s.pool with | none => 0 | some pl => pl.liquidity)) }

/-- The state committed after an operation: the new state on success;
on failure the transaction reverts to the pre-state (spec section 5,
atomicity is provided by the transactional execution environment). -/
def cCommit (s : CState) (op : COp) : CState :=
  match cStep s op with
  | .ok s2 => s2
  | .error _ => s

/-! ## The claims -/

/-- C1: for every operation (create pool, swap, position operations,
reward update) and every state, if the operation fails with any error,
the committed mutable state equals the state before the operation
started — the failure commits nothing. -/
theorem claim_C1_atomicity (s : CState) (op : COp) (e : AmmError)
    (h : cStep s op = .error e) : cCommit s op = s := by
  unfold cCommit
  rw [h]

/-- C2: for every tick index between MIN_TICK and MAX_TICK, converting
the tick to its square-root price and back returns the same tick — the
conversions are exact inverses under the conservative rounding
contract. -/
theorem claim_C2_tick_round_trip (t : ℤ) (hmin : MIN_TICK ≤ t) (hmax : t ≤ MAX_TICK) :
    tick_from_sqrt_price (sqrt_price_from_tick t) = t :=
  tick_round_trip hmin hmax

theorem claim_C2_witness :
    MIN_TICK ≤ (0 : ℤ) ∧ (0 : ℤ) ≤ MAX_TICK ∧
      tick_from_sqrt_price (sqrt_price_from_tick 0) = 0 :=
  ⟨by decide, by decide, claim_C2_tick_round_trip 0 (by decide) (by decide)⟩

/-- C3: after every finite sequence of position operations (open, close,
increase, decrease) starting from the empty pool, the sum of
liquidity-net over all initialized ticks (nonzero liquidity-gross)
equals zero. -/
theorem claim_C3_liquidity_net_sum (spacing : ℕ) (price : ℚ) (ops : List PosOp) :
    (((posRun spacing price tickInit ops).support.filter
        (fun i => (posRun spacing price tickInit ops).gross i ≠ 0)).sum
      (posRun spacing price tickInit ops).net) = 0 :=
  tick_net_sum_zero (posRun_inv ops tickInit tickInit_inv)

/-- C5: settling a position's fees and rewards twice in a row against
the same pool state (no intervening swaps) accrues nothing on the
second settlement — the second snapshot delta is zero, so the
settlement is idempotent. -/
theorem claim_C5_settle_idempotent (c : SettleCtx) (pos : PositionAcct) :
    settlePosition c (settlePosition c pos) = settlePosition c pos := by
  unfold settlePosition
  simp only [wsub_self, Nat.zero_mul, Nat.zero_div, Nat.add_zero, zipWith_self_add_zero]
  rw [List.take_of_length_le]
  simp [List.length_zipWith, List.length_zip]

/-- C6: `create_amm_config` succeeds only when
trade_fee_rate < FEE_RATE_DENOMINATOR_VALUE and
0 < protocol_fee_rate ≤ FEE_RATE_DENOMINATOR_VALUE; every input
violating either bound fails and creates no configuration. -/
theorem claim_C6_config_bounds (index tickSpacing tradeFeeRate protocolFeeRate : ℕ) :
    (∀ c, create_amm_config index tickSpacing tradeFeeRate protocolFeeRate = .ok c →
      tradeFeeRate < FEE_RATE_DENOMINATOR_VALUE ∧ 0 < protocolFeeRate ∧
        protocolFeeRate ≤ FEE_RATE_DENOMINATOR_VALUE) ∧
    (¬ (tradeFeeRate < FEE_RATE_DENOMINATOR_VALUE ∧ 0 < protocolFeeRate ∧
        protocolFeeRate ≤ FEE_RATE_DENOMINATOR_VALUE) →
      create_amm_config index tickSpacing tradeFeeRate protocolFeeRate = .error .validation) := by
  constructor
  · intro c hc
    unfold create_amm_config at hc
    by_cases h1 : protocolFeeRate > 0 ∧ protocolFeeRate ≤ FEE_RATE_DENOMINATOR_VALUE
    · rw [if_pos h1] at hc
      by_cases h2 : tradeFeeRate < FEE_RATE_DENOMINATOR_VALUE
      · exact ⟨h2, h1.1, h1.2⟩
      · rw [if_neg h2] at hc
        exact Except.noConfusion hc
    · rw [if_neg h1] at hc
      exact Except.noConfusion hc
  · intro hviol
    unfold create_amm_config
    by_cases h1 : protocolFeeRate > 0 ∧ protocolFeeRate ≤ FEE_RATE_DENOMINATOR_VALUE
    · rw [if_pos h1]
      by_cases h2 : tradeFeeRate < FEE_RATE_DENOMINATOR_VALUE
      · exact absurd ⟨h2, h1.1, h1.2⟩ hviol
      · rw [if_neg h2]
    · rw [if_neg h1]

theorem claim_C6_witness :
    create_amm_config 0 60 1000000 120000 = .error .validation ∧
      create_amm_config 0 60 2500 0 = .error .validation :=
  ⟨(claim_C6_config_bounds 0 60 1000000 120000).2 (by decide),
   (claim_C6_config_bounds 0 60 2500 0).2 (by decide)⟩

/-- C8: calling `set_reward_params` while the stream's reward cycle is
active with an emissions-per-second value strictly below the current
rate fails with a state-conflict error — extending an active cycle
never lowers the rate. -/
theorem claim_C8_reward_extend_guard (now : ℕ) (ri : RewardInfo)
    (emissionsPerSecondX64 openTime endTime : ℕ)
    (hopen : ri.openTime ≤ now) (hend : now < ri.endTime)
    (hlow : emissionsPerSecondX64 < ri.emissionsPerSecondX64) :
    set_reward_params now ri emissionsPerSecondX64 openTime endTime =
      .error .stateConflict := by
  unfold set_reward_params
  rw [if_pos ⟨hopen, hend⟩, if_pos hlow]

theorem claim_C8_witness :
    set_reward_params 150 ⟨100, 200, 100, 50, 0⟩ 49 300 400 = .error .stateConflict :=
  claim_C8_reward_extend_guard 150 ⟨100, 200, 100, 50, 0⟩ 49 300 400
    (by decide) (by decide) (by decide)

/-- C10: for every input passing the entry-point assertions, the
configuration created by `create_amm_config` carries the caller's
`trade_fee_rate` argument as its trade fee rate and the caller's
`protocol_fee_rate` argument as its protocol fee rate — the entry point
forwards each argument to the role its name declares (line 48 passes
them in the callee's (protocol, trade) parameter order). -/
theorem claim_C10_config_roles (index tickSpacing tradeFeeRate protocolFeeRate : ℕ)
    (c : AmmConfig)
    (h : create_amm_config index tickSpacing tradeFeeRate protocolFeeRate = .ok c) :
    c.tradeFeeRate = tradeFeeRate ∧ c.protocolFeeRate = protocolFeeRate := by
  unfold create_amm_config at h
  by_cases h1 : protocolFeeRate > 0 ∧ protocolFeeRate ≤ FEE_RATE_DENOMINATOR_VALUE
  · rw [if_pos h1] at h
    by_cases h2 : tradeFeeRate < FEE_RATE_DENOMINATOR_VALUE
    · rw [if_pos h2, Except.ok.injEq] at h
      rw [← h]
      exact ⟨rfl, rfl⟩
    · rw [if_neg h2] at h
      exact Except.noConfusion h
  · rw [if_neg h1] at h
    exact Except.noConfusion h

theorem claim_C10_witness :
    (instructions_create_amm_config 0 60 120000 2500).tradeFeeRate = 2500 ∧
      (instructions_create_amm_config 0 60 120000 2500).protocolFeeRate = 120000 :=
  claim_C10_config_roles 0 60 2500 120000 (instructions_create_amm_config 0 60 120000 2500)
    (by rfl)

/-- C7 (amended): for base-input swaps over the same pool state, input
amount, price limit and protocol fee rate, the returned amount_out is
non-increasing as the trade fee rate increases (the strict version of
the claim fails because distinct fee rates can floor to the same
integer fee). -/
theorem claim_C7_antitone (st : SwapPool) (r1 r2 amount thr1 thr2 : ℕ) (limit : ℚ)
    (res1 res2 : SwapPool × ℕ × ℕ)
    (hr12 : r1 ≤ r2) (hr2 : r2 < FEE_RATE_DENOMINATOR_VALUE) (hlimit : 0 < limit)
    (hp : 0 < st.sqrtPrice)
    (h1 : swap { st with tradeFeeRate := r1 } amount thr1 limit = .ok res1)
    (h2 : swap { st with tradeFeeRate := r2 } amount thr2 limit = .ok res2) :
    res2.2.2 ≤ res1.2.2 := by
  unfold swap at h1 h2
  dsimp only [] at h1 h2
  have hout : (swapLoop r2 st.protocolFeeRate limit (st.ticks.length + 1)
      { st with tradeFeeRate := r2 } amount).2.1 ≤
      (swapLoop r1 st.protocolFeeRate limit (st.ticks.length + 1)
        { st with tradeFeeRate := r1 } amount).2.1 :=
    swapLoop_out_antitone r1 r2 st.protocolFeeRate st.protocolFeeRate limit hr12 hr2 hlimit
      (st.ticks.length + 1) { st with tradeFeeRate := r1 } { st with tradeFeeRate := r2 }
      amount amount rfl rfl rfl hp (le_refl amount)
  split_ifs at h1 h2
  all_goals first
  | exact Except.noConfusion h1
  | exact Except.noConfusion h2
  | (rw [Except.ok.injEq] at h1 h2
     rw [← h1, ← h2]
     dsimp only []
     have hfl := Int.floor_le_floor hout
     omega)

/-- C4 (amended): a base-input swap with amount 0 consumes nothing and
changes no state: with other_amount_threshold = 0 it returns
amount_in = amount_out = 0 and the unchanged pool; with a positive
threshold it fails the slippage check (and, by atomicity, commits
nothing). -/
theorem claim_C4_amended (st : SwapPool) (limit : ℚ) (thr : ℕ) :
    (thr = 0 → swap st 0 thr limit = .ok (st, 0, 0)) ∧
    (0 < thr → swap st 0 thr limit = .error .slippageExceeded) := by
  constructor
  · intro h
    subst h
    exact swap_zero_amount st limit
  · intro h
    exact swap_zero_amount_pos_threshold st limit h

/-! ### Concrete scenario states -/

/-- The pool of the spec's section-8 numeric scenario (claim C9):
price 1 (2^64 in Q64.64), tick spacing 60, one position over
[-600, 600] with liquidity 10^12, trade fee rate 2500, protocol fee
rate 120000. -/
def pool9 : SwapPool :=
  { sqrtPrice := 1, tickSpacing := 60, liquidity := 10 ^ 12, feeGrowthGlobal0 := 0,
    protocolFeesToken0 := 0, tradeFeeRate := 2500, protocolFeeRate := 120000,
    ticks := [(-600, 10 ^ 12), (600, -(10 ^ 12))] }

/-- The pool state after the section-8 scenario swap. -/
def pool9After : SwapPool :=
  { sqrtPrice := (500000000000 : ℚ) / 500000000499, tickSpacing := 60, liquidity := 10 ^ 12,
    feeGrowthGlobal0 := (1 : ℚ) / 500000000000,
    protocolFeesToken0 := 0, tradeFeeRate := 2500, protocolFeeRate := 120000,
    ticks := [(-600, 10 ^ 12), (600, -(10 ^ 12))] }

/-- A small pool used for the zero-amount swap counterexample (claim
C4). -/
def c4Pool : SwapPool :=
  { sqrtPrice := 1, tickSpacing := 60, liquidity := 1000000, feeGrowthGlobal0 := 0,
    protocolFeesToken0 := 0, tradeFeeRate := 2500, protocolFeeRate := 120000, ticks := [] }

/-- The base pool of the fee-rate monotonicity counterexample (claim
C7). -/
def c7Base : SwapPool :=
  { sqrtPrice := 1, tickSpacing := 60, liquidity := 1000000, feeGrowthGlobal0 := 0,
    protocolFeesToken0 := 0, tradeFeeRate := 2500, protocolFeeRate := 120000, ticks := [] }

/-- The result of the claim-C7 swap at trade fee rate 2500. -/
def c7ResA : SwapPool × ℕ × ℕ :=
  ({ sqrtPrice := (500000 : ℚ) / 500499, tickSpacing := 60, liquidity := 1000000,
     feeGrowthGlobal0 := (1 : ℚ) / 500000, protocolFeesToken0 := 0, tradeFeeRate := 2500,
     protocolFeeRate := 120000, ticks := [] }, 1000, 997)

/-- The result of the claim-C7 swap at trade fee rate 2501. -/
def c7ResB : SwapPool × ℕ × ℕ :=
  ({ sqrtPrice := (500000 : ℚ) / 500499, tickSpacing := 60, liquidity := 1000000,
     feeGrowthGlobal0 := (1 : ℚ) / 500000, protocolFeesToken0 := 0, tradeFeeRate := 2501,
     protocolFeeRate := 120000, ticks := [] }, 1000, 997)

/-- The pool of the decrease-liquidity slippage scenario (claim C1's
witness). -/
def c1Pool : SwapPool :=
  { sqrtPrice := 1, tickSpacing := 60, liquidity := 0, feeGrowthGlobal0 := 0,
    protocolFeesToken0 := 0, tradeFeeRate := 2500, protocolFeeRate := 120000, ticks := [] }

/-- A tick table with one position over [-60, 60] with liquidity 5. -/
def c1Ticks : TickState :=
  { support := {-60, 60}
    net := fun i => if i = -60 then 5 else if i = 60 then -5 else 0
    gross := fun i => if i = -60 then 5 else if i = 60 then 5 else 0
    positions := [⟨-60, 60, 5⟩] }

/-- Combined state for the claim-C1 witness. -/
def c1State : CState := { pool := some c1Pool, ticksState := c1Ticks, rewards := [] }

/-- A decrease_liquidity call whose amount_0_min (10) exceeds the
computed withdrawal amount, so it must fail with the slippage error. -/
def c1Op : COp := .position (.decreaseLiquidity 0 5 10 0)

section ConcreteEvaluation

attribute [local semireducible] Rat.mul Rat.add Rat.sub Rat.inv Rat.ofScientific
set_option maxRecDepth 4000

theorem claim_C1_witness :
    cStep c1State c1Op = .error .slippageExceeded ∧ cCommit c1State c1Op = c1State :=
  ⟨by rfl, claim_C1_atomicity c1State c1Op .slippageExceeded (by rfl)⟩

/-- C4 counterexample: with amount = 0 and other_amount_threshold = 1
the swap does not return (0, 0) — it fails the slippage check — so the
claim's "for every choice of the other parameters" is false. -/
theorem claim_C4_counterexample :
    swap c4Pool 0 1 (1 / 2) = .error .slippageExceeded ∧
      ¬ swap c4Pool 0 1 (1 / 2) = .ok (c4Pool, 0, 0) := by
  refine ⟨swap_zero_amount_pos_threshold c4Pool (1 / 2) (by decide), fun hc => ?_⟩
  rw [swap_zero_amount_pos_threshold c4Pool (1 / 2) (by decide)] at hc
  exact Except.noConfusion hc

theorem claim_C4_witness :
    swap c4Pool 0 0 (1 / 2) = .ok (c4Pool, 0, 0) ∧
      swap c4Pool 0 3 (1 / 2) = .error .slippageExceeded :=
  ⟨(claim_C4_amended c4Pool (1 / 2) 0).1 rfl,
   (claim_C4_amended c4Pool (1 / 2) 3).2 (by decide)⟩

/-- C7 counterexample: two valid trade fee rates 2500 < 2501 over the
same pool state and base-input amount return the same amount_out 997,
so amount_out does not strictly decrease as the fee rate increases. -/
theorem claim_C7_counterexample :
    (2500 : ℕ) < 2501 ∧
    swap { c7Base with tradeFeeRate := 2500 } 1000 0 (1 / 2) = .ok c7ResA ∧
    swap { c7Base with tradeFeeRate := 2501 } 1000 0 (1 / 2) = .ok c7ResB ∧
    c7ResB.2.2 = c7ResA.2.2 := by
  refine ⟨by decide, by decide, by decide, by decide⟩

theorem claim_C7_witness :
    (2500 : ℕ) ≤ 2501 ∧ c7ResB.2.2 ≤ c7ResA.2.2 :=
  ⟨by decide,
   claim_C7_antitone c7Base 2500 2501 1000 0 0 (1 / 2) c7ResA c7ResB
     (by decide) (by decide) (by decide) (by decide) (by decide) (by decide)⟩

/-- C9: the spec's concrete scenario — pool at price 1 with tick
spacing 60, position over [-600, 600] with liquidity 10^12, base-input
swap of 1000 at trade fee rate 2500 and protocol fee rate 120000: the
fee deducted is 1000 × 2500 / 1,000,000 = 2 under the floor rounding
policy, the swap consumes the full input and returns 997 of token1, the
global fee-growth accumulator increases by exactly
(fee − protocol_share) / liquidity, and the resulting tick stays within
[-600, 600]. -/
theorem claim_C9_scenario :
    1000 * pool9.tradeFeeRate / FEE_RATE_DENOMINATOR_VALUE = 2 ∧
    swap pool9 1000 0 (1 / 2) = .ok (pool9After, 1000, 997) ∧
    pool9After.feeGrowthGlobal0 - pool9.feeGrowthGlobal0 =
      ((2 - 2 * pool9.protocolFeeRate / FEE_RATE_DENOMINATOR_VALUE : ℕ) : ℚ) /
        (pool9.liquidity : ℚ) ∧
    -600 ≤ tick_from_sqrt_price pool9After.sqrtPrice ∧
    tick_from_sqrt_price pool9After.sqrtPrice ≤ 600 := by
  refine ⟨by decide, by decide, by decide, ?_, ?_⟩
  · exact le_tick_from_sqrt_price (by decide) (by decide) (by decide)
  · exact tick_from_sqrt_price_le (by decide) (by decide)

end ConcreteEvaluation

end RaydiumClmm
